import Mathlib

/-!
# Verification of the concurrent grep tool (cgrep.go)

Shallow embedding of the scanning core of `src/cgrep.go`:

* `Result` — the `Result` struct (file name, line number, line content).
* `readBytesNl` — the contract of `bufio.Reader.ReadBytes('\n')`: it returns
  the bytes up to and including the first `'\n'`; the returned error is `nil`
  if and only if the returned data ends in the delimiter.
* `Source` — the environment model of one input file: the bytes that can be
  read before the source ends, plus whether the source then ends with a clean
  `io.EOF` or with some other read error.  An `os.Open` failure leaves a `nil`
  file handle on which every read immediately returns a non-EOF error, i.e.
  the source `⟨[], true⟩`.
* `jobDoLoop` / `jobDo` — the scan loop of `Job.Do`: read a line, strip
  trailing `'\n'`/`'\r'` with `bytes.TrimRight`, test the pattern and emit a
  `Result` on a match, then break if the read returned any error.  Note that
  the match test happens before the error check, exactly as in the source.
* `grepResults` — the results the `grep` pipeline reports, as a list in the
  sequential (single-worker) order; the concurrent fan-in only interleaves
  the per-file blocks, it neither drops nor duplicates results.
* `commandLineFiles` — the glob wrapper, with `filepath.Glob` abstracted as a
  function `String → Option (List String)` (`none` = `ErrBadPattern`,
  `some []` = Go's `nil` slice for "no match").

The regular-expression matcher is out of scope in the design (an external
capability answering true/false per line), so a pattern is modelled as an
arbitrary predicate `P : List Char → Bool`.

Spec-side definitions, written from the specification's words and used to
compare against the code: `splitLines`, `specLines` (the lines of a file in
the conventional sense, where an empty file has zero lines) and
`specMatches` (the matching (file, lineNumber, content) triples of a file).

A small-step transition system for the `grep` pipeline (dispatcher, worker
pool, aggregator, consumer) is developed at the end of the file to settle
the termination / deadlock-freedom property.
-/

set_option autoImplicit false

namespace CGrep

/-- The `Result` struct returned with every match: file name, line number,
line content (content kept as a list of characters). -/
structure Result where
  fname : String
  lino : Nat
  line : List Char
  deriving DecidableEq, Repr

/-- Is `c` one of the line-terminator characters of the cut set `"\n\r"`
of the `bytes.TrimRight` call? -/
def isLineTerm (c : Char) : Bool := c = '\n' || c = '\r'

/-- `bytes.TrimRight(line, "\n\r")`: remove every trailing `'\n'` or `'\r'`. -/
def trimRight (l : List Char) : List Char := l.rdropWhile isLineTerm

/-- One call of `reader.ReadBytes('\n')` on the bytes still available:
returns the data read (up to and including the first `'\n'`) and the
remaining bytes.  Per its contract the reader signals an error on this call
if and only if the returned data does not end in the delimiter. -/
def readBytesNl : List Char → List Char × List Char
  | [] => ([], [])
  | c :: cs =>
    if c = '\n' then ([c], cs)
    else
      let p := readBytesNl cs
      (c :: p.1, p.2)

/-- The environment model of one input source: `avail` is what can be read
before the source ends; `fails` tells whether the source then ends in a
read error other than `io.EOF` (`true`) or in a clean `io.EOF` (`false`). -/
structure Source where
  avail : List Char
  fails : Bool
  deriving DecidableEq, Repr

/-- The error value returned together with a read that did not find the
delimiter: clean end of input, or any other read failure. -/
inductive ReadErr where
  | eof
  | other
  deriving DecidableEq, Repr

/-- The error returned by `ReadBytes` together with data `d`: `none` iff `d`
ends in the delimiter; otherwise `io.EOF` on a clean end of input and some
other error when the source fails. -/
def readErr (d : List Char) (fails : Bool) : Option ReadErr :=
  if d.getLast? = some '\n' then none
  else some (if fails then ReadErr.other else ReadErr.eof)

theorem readBytesNl_append (l : List Char) :
    (readBytesNl l).1 ++ (readBytesNl l).2 = l := by
  induction l with
  | nil => rfl
  | cons c cs ih =>
    by_cases h : c = '\n'
    · simp [readBytesNl, h]
    · simpa [readBytesNl, h] using ih

theorem readBytesNl_ne_nil (c : Char) (cs : List Char) :
    (readBytesNl (c :: cs)).1 ≠ [] := by
  by_cases h : c = '\n' <;> simp [readBytesNl, h]

theorem readBytesNl_snd_lt (l : List Char)
    (h : (readBytesNl l).1 ≠ []) :
    (readBytesNl l).2.length < l.length := by
  have hl := readBytesNl_append l
  have : (readBytesNl l).1.length + (readBytesNl l).2.length = l.length := by
    rw [← List.length_append, hl]
  have hpos : 0 < (readBytesNl l).1.length := List.length_pos.mpr h
  omega

/-- One iteration's emission: trim the data returned by the read, test the
pattern, and produce the `Result` sent to the results channel on a match. -/
def emitLine (P : List Char → Bool) (fname : String) (lino : Nat)
    (d : List Char) : List Result :=
  if P (trimRight d) then [⟨fname, lino, trimRight d⟩] else []

/-- The loop body of `Job.Do`, started at line number `lino` with the bytes
`avail` still available from a source that behaves as `fails` says at its
end.  Each iteration reads one line, trims it, emits a `Result` when the
pattern matches, and then breaks if the read returned any error, i.e. when
`readErr d fails ≠ none`, which holds exactly when the data does not end in
the delimiter (whether that error is EOF or another failure only changes
what is logged, not what is emitted).  The match test precedes the error
check, as in the source.  The case split on `avail` exists only to justify
termination; `jobDoLoop_unfold` below restores the uniform loop shape. -/
def jobDoLoop (P : List Char → Bool) (fname : String) (fails : Bool) :
    Nat → List Char → List Result
  | lino, [] =>
    -- the read returns no data together with an error: the empty line is
    -- still tested, then the loop breaks
    emitLine P fname lino []
  | lino, c :: cs =>
    if ((readBytesNl (c :: cs)).1).getLast? = some '\n' then
      emitLine P fname lino (readBytesNl (c :: cs)).1 ++
        jobDoLoop P fname fails (lino + 1) (readBytesNl (c :: cs)).2
    else
      emitLine P fname lino (readBytesNl (c :: cs)).1
  termination_by _ avail => avail.length
  decreasing_by
    exact readBytesNl_snd_lt (c :: cs) (readBytesNl_ne_nil c cs)

/-- `readErr` returns no error exactly when the data ends in the delimiter:
the loop's break condition coincides with the delimiter test used in
`jobDoLoop`. -/
theorem readErr_eq_none_iff (d : List Char) (fails : Bool) :
    readErr d fails = none ↔ d.getLast? = some '\n' := by
  by_cases h : d.getLast? = some '\n' <;> simp [readErr, h]

/-- The uniform one-step unfolding of the scan loop: read, trim, test the
pattern, then recurse exactly when the read reported no error. -/
theorem jobDoLoop_unfold (P : List Char → Bool) (fname : String)
    (fails : Bool) (lino : Nat) (avail : List Char) :
    jobDoLoop P fname fails lino avail =
      if ((readBytesNl avail).1).getLast? = some '\n' then
        emitLine P fname lino (readBytesNl avail).1 ++
          jobDoLoop P fname fails (lino + 1) (readBytesNl avail).2
      else
        emitLine P fname lino (readBytesNl avail).1 := by
  cases avail with
  | nil => simp [jobDoLoop, readBytesNl]
  | cons c cs => rw [jobDoLoop]

/-- `Job.Do` for one job: run the scan loop from line 1 over the job's
source.  An `os.Open` failure is the source `⟨[], true⟩` (the `nil` file
handle makes the very first read return a non-EOF error with no data). -/
def jobDo (P : List Char → Bool) (fname : String) (src : Source) : List Result :=
  jobDoLoop P fname src.fails 1 src.avail

/-- The source seen by a job whose `os.Open` call failed: no bytes are ever
readable and the first read reports a non-EOF error (`os.ErrInvalid`). -/
def openFailSource : Source := ⟨[], true⟩

/-- Scanning one file that is opened and read without error: its entire
content is available and the source then ends with a clean EOF. -/
def scanFile (P : List Char → Bool) (fname : String) (content : List Char) :
    List Result :=
  jobDo P fname ⟨content, false⟩

/-- The results the `grep` pipeline reports for a list of files read without
error, listed file by file (the sequential order; the concurrent fan-in can
only interleave the per-file blocks, it neither drops nor duplicates). -/
def grepResults (P : List Char → Bool) (files : List (String × List Char)) :
    List Result :=
  (files.map (fun f => scanFile P f.1 f.2)).flatten

/-- `commandLineFiles` with `filepath.Glob` abstracted as `glob` (`none` is
a pattern error, `some ms` the matches, where `some []` stands for Go's
`nil` result on no match) and the OS name passed explicitly: on Windows each
name is glob-expanded, on every other platform the list is returned as is. -/
def commandLineFiles (glob : String → Option (List String)) (goos : String)
    (fnames : List String) : List String :=
  if goos = "windows" then
    fnames.foldl (fun args fname =>
      match glob fname with
      | none => args ++ [fname]
      | some ms => args ++ ms) []
  else
    fnames

/-! ## Spec-side definitions -/

/-- Prepend a character to the first segment of a split (used to build the
segments of a file from the front). -/
def consHead (c : Char) : List (List Char) → List (List Char)
  | [] => [[c]]
  | l :: ls => (c :: l) :: ls

/-- The segments of a file content between `'\n'` characters, none of the
`'\n'` characters kept; there is always one (possibly empty) final segment
after the last `'\n'`. -/
def splitLines : List Char → List (List Char)
  | [] => [[]]
  | c :: cs => if c = '\n' then [] :: splitLines cs else consHead c (splitLines cs)

/-- The lines of a file in the conventional sense: the segments between
newlines, except that the empty segment after a final `'\n'` is not a line
(in particular an empty file has zero lines). -/
def specLines (content : List Char) : List (List Char) :=
  let s := splitLines content
  if s.getLast? = some [] then s.dropLast else s

/-- Spec side of the completeness property: the (file, lineNumber, content)
triples of one file whose content, after stripping trailing line
terminators, matches the pattern; line numbers start at 1. -/
def specMatches (P : List Char → Bool) (fname : String) (content : List Char) :
    List Result :=
  ((specLines content).enumFrom 1).filterMap fun p =>
    if P (trimRight p.2) then some ⟨fname, p.1, trimRight p.2⟩ else none

/-- Spec side of the completeness property over a list of files. -/
def specMatchesAll (P : List Char → Bool) (files : List (String × List Char)) :
    List Result :=
  (files.map (fun f => specMatches P f.1 f.2)).flatten

/-! ## Structure of a scan: the reads of a source -/

/-- The successive data blocks `ReadBytes('\n')` returns on a source whose
available bytes are `avail`: every block but the last ends in `'\n'`; the
last block (possibly empty) is the one returned together with the error
that ends the scan. -/
def readsOf : List Char → List (List Char)
  | [] => [[]]
  | c :: cs => if c = '\n' then ['\n'] :: readsOf cs else consHead c (readsOf cs)

/-- The results the loop emits for a list of data blocks, with line numbers
counting up from `lino`. -/
def emitFrom (P : List Char → Bool) (fname : String) :
    Nat → List (List Char) → List Result
  | _, [] => []
  | lino, d :: ds => emitLine P fname lino d ++ emitFrom P fname (lino + 1) ds

theorem getLast?_cons_ne_nil {α : Type} (c : α) (l : List α) (h : l ≠ []) :
    (c :: l).getLast? = l.getLast? := by
  cases l with
  | nil => exact absurd rfl h
  | cons a as => exact List.getLast?_cons_cons

/-- The first read of a nonempty source splits off the first block that
`readsOf` lists; on a source with no delimiter the single block is all
there is. -/
theorem readsOf_eq (avail : List Char) :
    readsOf avail =
      if ((readBytesNl avail).1).getLast? = some '\n' then
        (readBytesNl avail).1 :: readsOf (readBytesNl avail).2
      else
        [(readBytesNl avail).1] := by
  induction avail with
  | nil => simp [readsOf, readBytesNl]
  | cons c cs ih =>
    by_cases hc : c = '\n'
    · subst hc
      simp [readsOf, readBytesNl]
    · have hread : readBytesNl (c :: cs) =
          (c :: (readBytesNl cs).1, (readBytesNl cs).2) := by
        simp [readBytesNl, hc]
      have hlhs : readsOf (c :: cs) = consHead c (readsOf cs) := by
        simp [readsOf, hc]
      cases cs with
      | nil =>
        rw [hlhs, hread]
        simp [readBytesNl, readsOf, consHead, hc]
      | cons c2 cs2 =>
        have hne : (readBytesNl (c2 :: cs2)).1 ≠ [] := readBytesNl_ne_nil c2 cs2
        have hlast : (c :: (readBytesNl (c2 :: cs2)).1).getLast? =
            ((readBytesNl (c2 :: cs2)).1).getLast? :=
          getLast?_cons_ne_nil c _ hne
        rw [hlhs, hread, ih]
        by_cases hd : ((readBytesNl (c2 :: cs2)).1).getLast? = some '\n'
        · rw [if_pos hd]
          simp only [consHead]
          rw [if_pos (by rw [hlast]; exact hd)]
        · rw [if_neg hd]
          simp only [consHead]
          rw [if_neg (by rw [hlast]; exact hd)]

/-- The scan loop emits exactly one (tested) line per read of the source,
whatever error ends the scan. -/
theorem jobDoLoop_eq_emitFrom_aux (P : List Char → Bool) (fname : String)
    (fails : Bool) :
    ∀ (n : Nat) (avail : List Char), avail.length ≤ n →
      ∀ lino, jobDoLoop P fname fails lino avail =
        emitFrom P fname lino (readsOf avail) := by
  intro n
  induction n with
  | zero =>
    intro avail h lino
    have hnil : avail = [] := List.length_eq_zero.mp (Nat.le_zero.mp h)
    subst hnil
    simp [jobDoLoop, readsOf, emitFrom]
  | succ n ih =>
    intro avail h lino
    rw [jobDoLoop_unfold, readsOf_eq avail]
    by_cases hc : ((readBytesNl avail).1).getLast? = some '\n'
    · rw [if_pos hc, if_pos hc]
      simp only [emitFrom]
      have hlt : (readBytesNl avail).2.length < avail.length := by
        refine readBytesNl_snd_lt avail ?_
        intro hnil
        rw [hnil] at hc
        simp at hc
      rw [ih _ (by omega) (lino + 1)]
    · rw [if_neg hc, if_neg hc]
      simp [emitFrom]

/-- `Job.Do` on any source emits exactly one (tested) line per read, counted
from line 1; the kind of error that ends the scan does not change what is
emitted, only what is logged. -/
theorem jobDo_eq_emitFrom (P : List Char → Bool) (fname : String)
    (src : Source) :
    jobDo P fname src = emitFrom P fname 1 (readsOf src.avail) :=
  jobDoLoop_eq_emitFrom_aux P fname src.fails src.avail.length src.avail
    le_rfl 1

/-! ## Reads versus conventional lines -/

/-- The relation between a read block and the corresponding conventional
line: the block either carries the terminating `'\n'` or is the line
itself. -/
def lineRel (a b : List Char) : Prop := a = b ++ ['\n'] ∨ a = b

theorem consHead_forall₂ {c : Char} {as bs : List (List Char)}
    (h : List.Forall₂ lineRel as bs) :
    List.Forall₂ lineRel (consHead c as) (consHead c bs) := by
  cases h with
  | nil => exact List.Forall₂.cons (Or.inr rfl) List.Forall₂.nil
  | cons hab htail =>
    refine List.Forall₂.cons ?_ htail
    cases hab with
    | inl h1 => exact Or.inl (by rw [h1]; rfl)
    | inr h1 => exact Or.inr (by rw [h1])

/-- Reads and conventional segments line up one for one. -/
theorem readsOf_rel_splitLines (content : List Char) :
    List.Forall₂ lineRel (readsOf content) (splitLines content) := by
  induction content with
  | nil => exact List.Forall₂.cons (Or.inr rfl) List.Forall₂.nil
  | cons c cs ih =>
    by_cases hc : c = '\n'
    · subst hc
      simp only [readsOf, splitLines, if_pos rfl]
      exact List.Forall₂.cons (Or.inl rfl) ih
    · simp only [readsOf, splitLines, if_neg hc]
      exact consHead_forall₂ ih

theorem isLineTerm_nl : isLineTerm '\n' = true := rfl

/-- Trimming removes a terminating newline: related blocks trim equal. -/
theorem trimRight_append_nl (b : List Char) :
    trimRight (b ++ ['\n']) = trimRight b :=
  List.rdropWhile_concat_pos isLineTerm b '\n' isLineTerm_nl

theorem emitLine_of_lineRel (P : List Char → Bool) (fname : String)
    (lino : Nat) {a b : List Char} (h : lineRel a b) :
    emitLine P fname lino a = emitLine P fname lino b := by
  cases h with
  | inl h1 => rw [emitLine, emitLine, h1, trimRight_append_nl]
  | inr h1 => rw [h1]

theorem emitFrom_congr (P : List Char → Bool) (fname : String)
    {as bs : List (List Char)} (h : List.Forall₂ lineRel as bs) :
    ∀ lino, emitFrom P fname lino as = emitFrom P fname lino bs := by
  induction h with
  | nil => intro lino; rfl
  | cons hab htail ih =>
    intro lino
    simp only [emitFrom]
    rw [emitLine_of_lineRel P fname lino hab, ih (lino + 1)]

/-- Scanning a whole file read without error emits one tested line per
conventional segment of its content. -/
theorem scanFile_eq_emitFrom (P : List Char → Bool) (fname : String)
    (content : List Char) :
    scanFile P fname content = emitFrom P fname 1 (splitLines content) := by
  rw [scanFile, jobDo_eq_emitFrom]
  exact emitFrom_congr P fname (readsOf_rel_splitLines content) 1

/-! ## Structure of the conventional lines -/

theorem splitLines_ne_nil (content : List Char) : splitLines content ≠ [] := by
  induction content with
  | nil => simp [splitLines]
  | cons c cs ih =>
    by_cases hc : c = '\n'
    · simp [splitLines, hc]
    · simp only [splitLines, if_neg hc]
      cases h : splitLines cs with
      | nil => exact absurd h ih
      | cons x xs => simp [consHead]

theorem splitLines_singleton (content : List Char) {x : List Char}
    (h : splitLines content = [x]) : x = content := by
  induction content generalizing x with
  | nil =>
    simp only [splitLines] at h
    injection h with h1 h2
    exact h1.symm
  | cons c cs ih =>
    by_cases hc : c = '\n'
    · simp only [splitLines, if_pos hc] at h
      injection h with h1 h2
      exact absurd h2 (splitLines_ne_nil cs)
    · simp only [splitLines, if_neg hc] at h
      cases hsp : splitLines cs with
      | nil => exact absurd hsp (splitLines_ne_nil cs)
      | cons y ys =>
        rw [hsp] at h
        cases ys with
        | nil =>
          simp only [consHead] at h
          injection h with h1 h2
          rw [← h1, ih hsp]
        | cons z zs =>
          simp only [consHead] at h
          injection h with h1 h2
          exact absurd h2 (by simp)

theorem consHead_getLast?_of_two {c : Char} {x y : List Char}
    {t : List (List Char)} :
    (consHead c (x :: y :: t)).getLast? = (x :: y :: t).getLast? := by
  simp only [consHead]
  rw [List.getLast?_cons_cons, List.getLast?_cons_cons]

/-- The final segment of a file content is empty exactly when the content is
empty or ends in a newline. -/
theorem splitLines_getLast?_nil_iff (content : List Char) :
    (splitLines content).getLast? = some [] ↔
      content = [] ∨ content.getLast? = some '\n' := by
  induction content with
  | nil => simp [splitLines]
  | cons c cs ih =>
    by_cases hc : c = '\n'
    · subst hc
      simp only [splitLines, if_true]
      rw [getLast?_cons_ne_nil [] (splitLines cs) (splitLines_ne_nil cs), ih]
      cases cs with
      | nil => simp
      | cons c2 cs2 =>
        rw [getLast?_cons_ne_nil '\n' (c2 :: cs2) (by simp)]
        simp
    · simp only [splitLines, if_neg hc]
      cases hsp : splitLines cs with
      | nil => exact absurd hsp (splitLines_ne_nil cs)
      | cons x xs =>
        cases xs with
        | nil =>
          -- a single segment: `cs` is newline-free and the head gets `c`
          have hx : x = cs := splitLines_singleton cs hsp
          simp only [consHead]
          constructor
          · intro h
            simp at h
          · rintro (h | h)
            · simp at h
            · exfalso
              cases hcs : cs with
              | nil =>
                rw [hcs] at h
                simp only [List.getLast?_singleton, Option.some.injEq] at h
                exact hc h
              | cons c2 cs2 =>
                rw [getLast?_cons_ne_nil c cs (by rw [hcs]; simp)] at h
                have h2 : (splitLines cs).getLast? = some [] := ih.mpr (Or.inr h)
                rw [hsp] at h2
                simp only [List.getLast?_singleton, Option.some.injEq] at h2
                rw [h2] at hx
                rw [hcs] at hx
                simp at hx
        | cons y ys =>
          rw [consHead_getLast?_of_two, ← hsp, ih]
          have hcsne : cs ≠ [] := by
            intro h
            rw [h] at hsp
            simp [splitLines] at hsp
          rw [getLast?_cons_ne_nil c cs hcsne]
          simp [hcsne]

/-- When the final segment is empty, the segments are the conventional lines
followed by that empty segment. -/
theorem splitLines_eq_specLines_append (content : List Char)
    (h : (splitLines content).getLast? = some []) :
    splitLines content = specLines content ++ [[]] := by
  rw [specLines]
  simp only [if_pos h]
  have hne : splitLines content ≠ [] := splitLines_ne_nil content
  have hlast : (splitLines content).getLast hne = [] := by
    have := List.getLast?_eq_getLast_of_ne_nil hne
    rw [h] at this
    exact (Option.some.injEq _ _ ▸ this).symm
  rw [← hlast]
  exact (List.dropLast_append_getLast hne).symm

/-- When the final segment is not empty, the conventional lines are exactly
the segments. -/
theorem specLines_eq_splitLines (content : List Char)
    (h : (splitLines content).getLast? ≠ some []) :
    specLines content = splitLines content := by
  rw [specLines]
  simp only [if_neg h]

theorem emitFrom_append (P : List Char → Bool) (fname : String)
    (xs ys : List (List Char)) :
    ∀ lino, emitFrom P fname lino (xs ++ ys) =
      emitFrom P fname lino xs ++ emitFrom P fname (lino + xs.length) ys := by
  induction xs with
  | nil => intro lino; simp [emitFrom]
  | cons x xs ih =>
    intro lino
    simp only [List.cons_append, emitFrom, List.append_eq, ih (lino + 1),
      List.append_assoc, List.length_cons]
    have harith : lino + 1 + xs.length = lino + (xs.length + 1) := by omega
    rw [harith]

theorem emitFrom_eq_filterMap (P : List Char → Bool) (fname : String)
    (ds : List (List Char)) :
    ∀ lino, ((ds.enumFrom lino).filterMap fun p =>
        if P (trimRight p.2) then some ⟨fname, p.1, trimRight p.2⟩ else none) =
      emitFrom P fname lino ds := by
  induction ds with
  | nil => intro lino; rfl
  | cons d ds ih =>
    intro lino
    simp only [List.enumFrom, List.filterMap_cons]
    by_cases h : P (trimRight d)
    · simp only [if_pos h, emitFrom, emitLine, ih (lino + 1)]
      simp [h]
    · simp only [if_neg h, emitFrom, emitLine, ih (lino + 1)]
      simp [h]

/-- The spec-side matches of a file are what the loop emits over the
conventional lines. -/
theorem specMatches_eq_emitFrom (P : List Char → Bool) (fname : String)
    (content : List Char) :
    specMatches P fname content = emitFrom P fname 1 (specLines content) :=
  emitFrom_eq_filterMap P fname (specLines content) 1

/-- Master characterization of one error-free file scan: the reported
results are exactly the spec-side matches, plus one extra result
`(fname, lines + 1, "")` when the content is empty or ends in `'\n'` and
the pattern matches the empty line — the empty final read at end-of-input
is tested against the pattern before the loop breaks. -/
theorem scanFile_characterization (P : List Char → Bool) (fname : String)
    (content : List Char) :
    scanFile P fname content =
      specMatches P fname content ++
        (if (splitLines content).getLast? = some [] ∧ P [] = true then
          [⟨fname, (specLines content).length + 1, []⟩]
        else []) := by
  rw [scanFile_eq_emitFrom, specMatches_eq_emitFrom]
  by_cases h : (splitLines content).getLast? = some []
  · rw [splitLines_eq_specLines_append content h, emitFrom_append]
    congr 1
    simp only [emitFrom, emitLine]
    have htrim : trimRight ([] : List Char) = [] := rfl
    rw [htrim]
    by_cases hP : P [] = true
    · simp only [hP, if_true, h, and_self]
      have harith : 1 + (specLines content).length =
          (specLines content).length + 1 := by omega
      simp [harith]
    · have hP2 : P [] = false := by
        cases hPb : P [] with
        | false => rfl
        | true => exact absurd hPb hP
      simp [hP2]
  · rw [specLines_eq_splitLines content h]
    simp [h]

/-! ## Position and order of emitted results -/

/-- A result is emitted exactly for the tested lines whose stripped content
matches, and it carries the position of its line. -/
theorem mem_emitFrom_iff (P : List Char → Bool) (fname : String) (r : Result) :
    ∀ (ds : List (List Char)) (lino : Nat),
      r ∈ emitFrom P fname lino ds ↔
        ∃ i d, ds[i]? = some d ∧ P (trimRight d) = true ∧
          r = ⟨fname, lino + i, trimRight d⟩ := by
  intro ds
  induction ds with
  | nil =>
    intro lino
    simp [emitFrom]
  | cons d ds ih =>
    intro lino
    constructor
    · intro h
      rw [emitFrom, List.mem_append] at h
      rcases h with h | h
      · rw [emitLine] at h
        by_cases hP : P (trimRight d)
        · rw [if_pos hP] at h
          simp only [List.mem_singleton] at h
          refine ⟨0, d, by simp, hP, ?_⟩
          rw [h]
          simp
        · rw [if_neg hP] at h
          simp at h
      · obtain ⟨i, d2, hget, hP2, hr⟩ := (ih (lino + 1)).mp h
        refine ⟨i + 1, d2, by simpa using hget, hP2, ?_⟩
        rw [hr]
        have harith : lino + 1 + i = lino + (i + 1) := by omega
        rw [harith]
    · rintro ⟨i, d2, hget, hP2, hr⟩
      rw [emitFrom, List.mem_append]
      cases i with
      | zero =>
        simp only [List.getElem?_cons_zero, Option.some.injEq] at hget
        subst hget
        left
        rw [emitLine, if_pos hP2]
        simp only [List.mem_singleton]
        rw [hr]
        simp
      | succ i =>
        right
        refine (ih (lino + 1)).mpr ⟨i, d2, by simpa using hget, hP2, ?_⟩
        rw [hr]
        have harith : lino + (i + 1) = lino + 1 + i := by omega
        rw [harith]

theorem le_lino_of_mem_emitFrom (P : List Char → Bool) (fname : String)
    (r : Result) (ds : List (List Char)) (lino : Nat)
    (h : r ∈ emitFrom P fname lino ds) : lino ≤ r.lino := by
  obtain ⟨i, d, _, _, hr⟩ := (mem_emitFrom_iff P fname r ds lino).mp h
  rw [hr]
  simp

/-- Line numbers of the emitted results are strictly ascending: the loop
emits in read order, counting the line number up. -/
theorem emitFrom_pairwise (P : List Char → Bool) (fname : String) :
    ∀ (ds : List (List Char)) (lino : Nat),
      (emitFrom P fname lino ds).Pairwise (fun a b => a.lino < b.lino) := by
  intro ds
  induction ds with
  | nil =>
    intro lino
    simp [emitFrom]
  | cons d ds ih =>
    intro lino
    rw [emitFrom, List.pairwise_append]
    refine ⟨?_, ih (lino + 1), ?_⟩
    · rw [emitLine]
      by_cases hP : P (trimRight d) <;> simp [hP]
    · intro a ha b hb
      have hb2 : lino + 1 ≤ b.lino :=
        le_lino_of_mem_emitFrom P fname b ds (lino + 1) hb
      have ha2 : a.lino = lino := by
        rw [emitLine] at ha
        by_cases hP : P (trimRight d)
        · rw [if_pos hP] at ha
          simp only [List.mem_singleton] at ha
          rw [ha]
        · rw [if_neg hP] at ha
          simp at ha
      omega

/-! ## Trimming facts -/

theorem isLineTerm_iff (c : Char) :
    isLineTerm c = true ↔ c = '\n' ∨ c = '\r' := by
  simp [isLineTerm]

/-- Trimming removes any suffix made of terminators, in any count and
order. -/
theorem trimRight_append_terms (l junk : List Char)
    (h : ∀ c ∈ junk, c = '\n' ∨ c = '\r') :
    trimRight (l ++ junk) = trimRight l := by
  induction junk using List.reverseRecOn with
  | nil => simp
  | append_singleton js j ih =>
    have hj : isLineTerm j = true :=
      (isLineTerm_iff j).mpr (h j (by simp))
    rw [← List.append_assoc, trimRight,
      List.rdropWhile_concat_pos isLineTerm (l ++ js) j hj]
    exact ih (fun c hc => h c (by simp [hc]))

/-- A trimmed line never ends in a terminator character. -/
theorem trimRight_no_term (l : List Char) :
    (trimRight l).getLast? ≠ some '\n' ∧ (trimRight l).getLast? ≠ some '\r' := by
  by_cases h : trimRight l = []
  · rw [h]
    simp
  · have hnot : ¬(isLineTerm ((List.rdropWhile isLineTerm l).getLast h) = true) :=
      List.rdropWhile_last_not isLineTerm l h
    have heq : (trimRight l).getLast? = some ((trimRight l).getLast h) :=
      List.getLast?_eq_getLast_of_ne_nil h
    rw [heq]
    constructor
    · intro hcontra
      refine hnot ((isLineTerm_iff _).mpr (Or.inl ?_))
      injection hcontra
    · intro hcontra
      refine hnot ((isLineTerm_iff _).mpr (Or.inr ?_))
      injection hcontra

/-! ## Evaluation helpers

`jobDoLoop` is defined by well-founded recursion, so concrete runs are
evaluated through the structural characterizations proved above. -/

theorem grepResults_eq (P : List Char → Bool)
    (files : List (String × List Char)) :
    grepResults P files =
      (files.map (fun f => emitFrom P f.1 1 (splitLines f.2))).flatten := by
  rw [grepResults]
  simp only [scanFile_eq_emitFrom]

theorem specMatchesAll_eq (P : List Char → Bool)
    (files : List (String × List Char)) :
    specMatchesAll P files =
      (files.map (fun f => emitFrom P f.1 1 (specLines f.2))).flatten := by
  rw [specMatchesAll]
  simp only [specMatches_eq_emitFrom]

/-! ## The claims -/

/-- A pattern matching every line (e.g. the empty regular expression); in
particular it matches the empty string. -/
def patAll : List Char → Bool := fun _ => true

/-- C1: the completeness claim fails on the code.  With the single file
"a.txt" of content "x\n" opened and read without error, and a pattern
matching every line, grep reports the matching line ("a.txt", 1, "x") but
also a phantom triple ("a.txt", 2, "") that corresponds to no line of the
file: the empty read at end-of-input is tested against the pattern before
the loop breaks.  The reported multiset therefore differs from the set of
matching (file, lineNumber, content) triples across the files. -/
theorem c1_completeness_eval :
    grepResults patAll [("a.txt", ['x', '\n'])] =
        [⟨"a.txt", 1, ['x']⟩, ⟨"a.txt", 2, []⟩] ∧
      specMatchesAll patAll [("a.txt", ['x', '\n'])] =
        [⟨"a.txt", 1, ['x']⟩] := by
  constructor
  · rw [grepResults_eq]
    rfl
  · rw [specMatchesAll_eq]
    rfl

/-- C2: the zero-line-file claim fails on the code.  Scanning an empty file
with a pattern matching every line emits one match ("empty.txt", 1, "")
instead of none: the first read returns no data with EOF, and the empty
line is tested against the pattern before the loop breaks. -/
theorem c2_empty_file_eval :
    scanFile patAll "empty.txt" [] = [⟨"empty.txt", 1, []⟩] := by
  rw [scanFile_eq_emitFrom]
  rfl

/-- C3: the no-partial-line claim fails on the code.  On a source that
delivers "ok\nfo" and then fails with a non-EOF read error (mid-line), the
completed first line is delivered and the scan stops at the failure, but
the partially read line "fo" is also emitted as a match. -/
theorem c3_partial_line_eval :
    jobDo patAll "f.txt" ⟨['o', 'k', '\n', 'f', 'o'], true⟩ =
      [⟨"f.txt", 1, ['o', 'k']⟩, ⟨"f.txt", 2, ['f', 'o']⟩] := by
  rw [jobDo_eq_emitFrom]
  rfl

/-- C4: the zero-matches-on-open-failure claim fails on the code.  A job
whose `os.Open` failed still runs the scan loop on the nil file handle; the
first read returns no data with a non-EOF error, and the empty line is
tested against the pattern before the loop breaks, so a pattern matching
the empty string yields one match ("missing.txt", 1, "") instead of none. -/
theorem c4_open_failure_eval :
    jobDo patAll "missing.txt" openFailSource = [⟨"missing.txt", 1, []⟩] := by
  rw [jobDo_eq_emitFrom]
  rfl

/-- C5: a non-empty file whose final line has no trailing terminator has
that line counted (the conventional lines are exactly the segments, final
segment included) and tested: the result carrying the last line number
(numbering from 1, one per line read) is reported iff the pattern matches
the stripped final line. -/
theorem c5_final_line (P : List Char → Bool) (fname : String)
    (content l : List Char) (hne : content ≠ [])
    (hlast : content.getLast? ≠ some '\n')
    (hl : (specLines content).getLast? = some l) :
    specLines content = splitLines content ∧
      (⟨fname, (specLines content).length, trimRight l⟩ ∈
          scanFile P fname content ↔ P (trimRight l) = true) := by
  have hnophantom : (splitLines content).getLast? ≠ some [] := by
    intro hcontra
    rcases (splitLines_getLast?_nil_iff content).mp hcontra with h | h
    · exact hne h
    · exact hlast h
  have hspec : specLines content = splitLines content :=
    specLines_eq_splitLines content hnophantom
  refine ⟨hspec, ?_⟩
  have hscan : scanFile P fname content =
      emitFrom P fname 1 (specLines content) := by
    rw [scanFile_eq_emitFrom, hspec]
  rw [hscan]
  have hlen : 1 ≤ (specLines content).length := by
    cases hsl : specLines content with
    | nil =>
      rw [hsl] at hl
      simp at hl
    | cons x xs => simp
  have hidx : (specLines content)[(specLines content).length - 1]? = some l := by
    rw [← List.getLast?_eq_getElem? (specLines content)]
    exact hl
  rw [mem_emitFrom_iff]
  constructor
  · rintro ⟨i, d, hget, hP, heq⟩
    have h1 : (specLines content).length = 1 + i := by
      have := congrArg Result.lino heq
      simpa using this
    have h2 : trimRight l = trimRight d := by
      have := congrArg Result.line heq
      simpa using this
    have hieq : i = (specLines content).length - 1 := by omega
    rw [hieq, hidx] at hget
    injection hget with hld
    rw [h2]
    exact hP
  · intro hP
    refine ⟨(specLines content).length - 1, l, hidx, hP, ?_⟩
    have harith : 1 + ((specLines content).length - 1) =
        (specLines content).length := by omega
    rw [harith]

/-- Witness for C5 at the concrete file "a\nb" whose final line "b" has no
trailing terminator. -/
theorem c5_witness :
    specLines ['a', '\n', 'b'] = splitLines ['a', '\n', 'b'] ∧
      (⟨"w.txt", (specLines ['a', '\n', 'b']).length, trimRight ['b']⟩ ∈
          scanFile patAll "w.txt" ['a', '\n', 'b'] ↔
        patAll (trimRight ['b']) = true) :=
  c5_final_line patAll "w.txt" ['a', '\n', 'b'] ['b'] (by decide) (by decide)
    (by decide)

/-- C6: within one file — whatever source behaviour, clean or failing — the
emitted matches carry strictly ascending line numbers: the per-file scan
emits matches in the order the lines are read, so the k matches a file
contributes appear in ascending line-number order. -/
theorem c6_per_file_order (P : List Char → Bool) (fname : String)
    (src : Source) :
    (jobDo P fname src).Pairwise (fun a b => a.lino < b.lino) := by
  rw [jobDo_eq_emitFrom]
  exact emitFrom_pairwise P fname (readsOf src.avail) 1

/-- C8: trimming removes every trailing '\n' and '\r', in any count and
order, before matching and reporting; consequently the content of every
reported match never ends in '\n' or '\r'. -/
theorem c8_strip_terminators :
    (∀ (l junk : List Char), (∀ c ∈ junk, c = '\n' ∨ c = '\r') →
        trimRight (l ++ junk) = trimRight l) ∧
      ∀ (P : List Char → Bool) (fname : String) (src : Source) (r : Result),
        r ∈ jobDo P fname src →
          r.line.getLast? ≠ some '\n' ∧ r.line.getLast? ≠ some '\r' := by
  refine ⟨trimRight_append_terms, ?_⟩
  intro P fname src r hr
  rw [jobDo_eq_emitFrom] at hr
  obtain ⟨i, d, hget, hP, heq⟩ := (mem_emitFrom_iff P fname r _ 1).mp hr
  have hline : r.line = trimRight d := by rw [heq]
  rw [hline]
  exact trimRight_no_term d

/-- Witness for C8: a line ending in "\r\n\r\n" loses all four characters. -/
theorem c8_witness : trimRight ['x', '\r', '\n', '\r', '\n'] = ['x'] := by
  have h := c8_strip_terminators.1 ['x'] ['\r', '\n', '\r', '\n'] (by decide)
  exact h.trans rfl

/-- C9: a file whose content ends in '\n', scanned with a pattern matching
the empty string, yields exactly one extra match beyond its lines, numbered
(number of lines + 1) with empty content: the empty read at end-of-input is
still tested against the pattern before the scan terminates. -/
theorem c9_phantom_match (P : List Char → Bool) (fname : String)
    (content : List Char) (hnl : content.getLast? = some '\n')
    (hP : P [] = true) :
    scanFile P fname content =
      specMatches P fname content ++
        [⟨fname, (specLines content).length + 1, []⟩] := by
  rw [scanFile_characterization]
  have hcond : (splitLines content).getLast? = some [] :=
    (splitLines_getLast?_nil_iff content).mpr (Or.inr hnl)
  simp [hcond, hP]

/-- Witness for C9 at the concrete newline-terminated file "a\n". -/
theorem c9_witness :
    scanFile patAll "b.txt" ['a', '\n'] =
      specMatches patAll "b.txt" ['a', '\n'] ++
        [⟨"b.txt", (specLines ['a', '\n']).length + 1, []⟩] :=
  c9_phantom_match patAll "b.txt" ['a', '\n'] (by decide) rfl

/-- C10: on every non-Windows platform, `commandLineFiles` returns exactly
its input list, unchanged and in order. -/
theorem c10_non_windows_identity (glob : String → Option (List String))
    (goos : String) (fnames : List String) (h : goos ≠ "windows") :
    commandLineFiles glob goos fnames = fnames := by
  rw [commandLineFiles, if_neg h]

/-- Witness for C10 on the platform name "linux". -/
theorem c10_witness :
    commandLineFiles (fun _ => none) "linux" ["a.txt", "b.txt"] =
      ["a.txt", "b.txt"] :=
  c10_non_windows_identity (fun _ => none) "linux" ["a.txt", "b.txt"]
    (by decide)

/-! ## The concurrent pipeline: a small-step model of `grep`

`grep` wires a dispatcher, `cntWorkers` workers and an aggregator over
three channels (`jobs`, capacity `cntWorkers`; `results`, capacity
`len(fnames)`; `done`, capacity `cntWorkers`), with the foreground loop as
the single consumer of `results`.  Each channel is a FIFO buffer: a send is
enabled while the buffer holds fewer elements than the capacity, a receive
while the buffer is nonempty, and a `range` loop over a channel ends once
the channel is closed and drained.  A pipeline state records the buffers,
the close flags and each task's progress; a `Step` is one such primitive
channel operation by one task, and runs are arbitrary interleavings.  What
a worker sends for a job does not depend on scheduling, so the per-job
emissions enter the model as a function of the file name, instantiated
with `jobDo` in the claim. -/

/-- The phase of one worker goroutine. -/
inductive WState where
  | waiting
  | emitting (rs : List Result)
  | done
  deriving DecidableEq, Repr

/-- The static configuration of one `grep` invocation: the file list (the
jobs, in dispatch order), the worker count, and the results each job sends
while processed. -/
structure GrepCfg where
  files : List String
  workerCount : Nat
  jobResults : String → List Result

/-- One state of the pipeline.

* `pending` — files the dispatcher goroutine has not yet sent to `jobs`;
* `jobsBuf`/`jobsClosed` — the `jobs` channel (capacity `workerCount`);
* `workers` — one entry per worker goroutine: at `for job := range jobs`
  (`waiting`), inside `job.Do` with the listed sends remaining
  (`emitting`), or returned after sending its done signal (`done`);
* `doneCount` — signals buffered in the `done` channel (capacity
  `workerCount`), `aggregated` — signals the aggregator has received;
* `resultsBuf`/`resultsClosed` — the `results` channel (capacity
  `files.length`); `consumed` — results printed by the foreground loop. -/
structure PState where
  pending : List String
  jobsBuf : List String
  jobsClosed : Bool
  workers : List WState
  doneCount : Nat
  aggregated : Nat
  resultsBuf : List Result
  resultsClosed : Bool
  consumed : List Result

/-- The state right after `grep` created the channels and spawned the
tasks: nothing dispatched, all workers waiting at the `jobs` channel, all
buffers empty, both closable channels open. -/
def initState (cfg : GrepCfg) : PState :=
  { pending := cfg.files
    jobsBuf := []
    jobsClosed := false
    workers := List.replicate cfg.workerCount WState.waiting
    doneCount := 0
    aggregated := 0
    resultsBuf := []
    resultsClosed := false
    consumed := [] }

/-- One scheduler step of the pipeline: a primitive channel operation by
the dispatcher, a worker, the aggregator or the foreground consumer. -/
inductive Step (cfg : GrepCfg) : PState → PState → Prop where
  | dispatch (s : PState) (f : String) (rest : List String)
      (hp : s.pending = f :: rest)
      (hcap : s.jobsBuf.length < cfg.workerCount) :
      Step cfg s { s with pending := rest, jobsBuf := s.jobsBuf ++ [f] }
  | closeJobs (s : PState)
      (hp : s.pending = []) (hc : s.jobsClosed = false) :
      Step cfg s { s with jobsClosed := true }
  | take (s : PState) (f : String) (rest : List String)
      (lw rw : List WState)
      (hb : s.jobsBuf = f :: rest)
      (hw : s.workers = lw ++ WState.waiting :: rw) :
      Step cfg s { s with
        jobsBuf := rest
        workers := lw ++ WState.emitting (cfg.jobResults f) :: rw }
  | workerExit (s : PState) (lw rw : List WState)
      (hb : s.jobsBuf = [])
      (hc : s.jobsClosed = true)
      (hw : s.workers = lw ++ WState.waiting :: rw)
      (hcap : s.doneCount < cfg.workerCount) :
      Step cfg s { s with
        workers := lw ++ WState.done :: rw
        doneCount := s.doneCount + 1 }
  | emit (s : PState) (r : Result) (rs : List Result) (lw rw : List WState)
      (hw : s.workers = lw ++ WState.emitting (r :: rs) :: rw)
      (hcap : s.resultsBuf.length < cfg.files.length)
      (hopen : s.resultsClosed = false) :
      Step cfg s { s with
        workers := lw ++ WState.emitting rs :: rw
        resultsBuf := s.resultsBuf ++ [r] }
  | finishJob (s : PState) (lw rw : List WState)
      (hw : s.workers = lw ++ WState.emitting [] :: rw) :
      Step cfg s { s with workers := lw ++ WState.waiting :: rw }
  | aggRecv (s : PState)
      (hd : 1 ≤ s.doneCount) (ha : s.aggregated < cfg.workerCount) :
      Step cfg s { s with
        doneCount := s.doneCount - 1
        aggregated := s.aggregated + 1 }
  | closeResults (s : PState)
      (ha : s.aggregated = cfg.workerCount) (hc : s.resultsClosed = false) :
      Step cfg s { s with resultsClosed := true }
  | consume (s : PState) (r : Result) (rest : List Result)
      (hb : s.resultsBuf = r :: rest) :
      Step cfg s { s with
        resultsBuf := rest
        consumed := s.consumed ++ [r] }

/-- Zero or more pipeline steps. -/
def StepStar (cfg : GrepCfg) : PState → PState → Prop :=
  Relation.ReflTransGen (Step cfg)

/-- The observation that lets `grep` return: the foreground loop sees the
result sink closed and drained and the `range results` loop ends. -/
def Final (s : PState) : Prop := s.resultsClosed = true ∧ s.resultsBuf = []

/-! ### A measure decreasing on every step -/

/-- Remaining effort of one worker. -/
def wCost : WState → Nat
  | WState.waiting => 2
  | WState.emitting rs => 2 * rs.length + 3
  | WState.done => 0

/-- Remaining effort of one not-yet-processed job. -/
def jobCost (cfg : GrepCfg) (f : String) : Nat :=
  2 * (cfg.jobResults f).length + 4

/-- Cost of a channel still open for closing. -/
def flagCost (b : Bool) : Nat := if b then 0 else 1

/-- Total remaining effort of the pipeline. -/
def pipeMeasure (cfg : GrepCfg) (s : PState) : Nat :=
  (s.pending.map (fun f => jobCost cfg f + 1)).sum +
    (s.jobsBuf.map (jobCost cfg)).sum +
    (s.workers.map wCost).sum +
    s.doneCount + s.resultsBuf.length +
    flagCost s.jobsClosed + flagCost s.resultsClosed

/-- Every pipeline step strictly decreases the measure: no run is
infinite. -/
theorem step_measure_lt (cfg : GrepCfg) (s t : PState)
    (h : Step cfg s t) : pipeMeasure cfg t < pipeMeasure cfg s := by
  cases h with
  | dispatch f rest hp hcap =>
    simp only [pipeMeasure, hp, List.map_cons, List.sum_cons,
      List.map_append, List.sum_append, List.map_nil, List.sum_nil]
    omega
  | closeJobs hp hc =>
    simp only [pipeMeasure, hc, flagCost]
    simp
  | take f rest lw rw hb hw =>
    simp only [pipeMeasure, hb, hw, List.map_cons, List.sum_cons,
      List.map_append, List.sum_append, wCost, jobCost]
    omega
  | workerExit lw rw hb hc hw hcap =>
    simp only [pipeMeasure, hw, List.map_cons, List.sum_cons,
      List.map_append, List.sum_append, wCost]
    omega
  | emit r rs lw rw hw hcap hopen =>
    simp only [pipeMeasure, hw, List.map_cons, List.sum_cons,
      List.map_append, List.sum_append, List.map_nil, List.sum_nil, wCost,
      List.length_append, List.length_cons, List.length_nil]
    omega
  | finishJob lw rw hw =>
    simp only [pipeMeasure, hw, List.map_cons, List.sum_cons,
      List.map_append, List.sum_append, wCost]
    omega
  | aggRecv hd ha =>
    simp only [pipeMeasure]
    omega
  | closeResults ha hc =>
    simp only [pipeMeasure, hc, flagCost]
    simp
  | consume r rest hb =>
    simp only [pipeMeasure, hb, List.length_cons]
    omega

/-! ### Invariants of the pipeline -/

/-- Number of workers that have already emitted their done signal. -/
def countDone : List WState → Nat
  | [] => 0
  | w :: ws => (if w = WState.done then 1 else 0) + countDone ws

theorem countDone_append (a b : List WState) :
    countDone (a ++ b) = countDone a + countDone b := by
  induction a with
  | nil => simp [countDone]
  | cons w ws ih =>
    simp only [List.cons_append, List.append_eq, countDone, ih]
    omega

theorem countDone_le_length (ws : List WState) : countDone ws ≤ ws.length := by
  induction ws with
  | nil => simp [countDone]
  | cons w ws ih =>
    simp only [countDone, List.length_cons]
    by_cases h : w = WState.done
    · rw [if_pos h]
      omega
    · rw [if_neg h]
      omega

theorem exists_not_done (ws : List WState)
    (h : countDone ws < ws.length) :
    ∃ lw w rw, ws = lw ++ w :: rw ∧ w ≠ WState.done := by
  induction ws with
  | nil => simp [countDone] at h
  | cons w ws ih =>
    by_cases hw : w = WState.done
    · subst hw
      have h2 : countDone ws < ws.length := by
        simp [countDone] at h
        omega
      obtain ⟨lw, w2, rw, heq, hne⟩ := ih h2
      exact ⟨WState.done :: lw, w2, rw, by rw [heq]; rfl, hne⟩
    · exact ⟨[], w, ws, rfl, hw⟩

theorem all_done_of_countDone_eq (ws : List WState)
    (h : countDone ws = ws.length) : ∀ w ∈ ws, w = WState.done := by
  induction ws with
  | nil => simp
  | cons w ws ih =>
    by_cases hw : w = WState.done
    · subst hw
      simp [countDone] at h
      intro x hx
      rcases List.mem_cons.mp hx with h1 | h1
      · rw [h1]
      · exact ih (by omega) x h1
    · exfalso
      have h1 : countDone (w :: ws) = countDone ws := by
        simp [countDone, hw]
      have h2 := countDone_le_length ws
      rw [h1] at h
      simp only [List.length_cons] at h
      omega

theorem countDone_replicate_waiting (n : Nat) :
    countDone (List.replicate n WState.waiting) = 0 := by
  induction n with
  | zero => rfl
  | succ n ih => simp [List.replicate, countDone, ih]

/-- The state invariants of the pipeline used by the safety argument:
the worker list has the configured size; done signals are conserved
(received + buffered = workers that sent one); only a nonempty file list
puts a worker into the emitting phase (so the results channel has nonzero
capacity whenever someone sends); the dispatcher only ever submits files of
the list; and the result sink is closed only after the aggregator received
every signal. -/
structure Inv (cfg : GrepCfg) (s : PState) : Prop where
  workersLen : s.workers.length = cfg.workerCount
  doneBalance : s.aggregated + s.doneCount = countDone s.workers
  emittingSource : ∀ rs : List Result,
    WState.emitting rs ∈ s.workers → cfg.files ≠ []
  pendingSub : ∀ f ∈ s.pending, f ∈ cfg.files
  jobsBufSub : ∀ f ∈ s.jobsBuf, f ∈ cfg.files
  closedAgg : s.resultsClosed = true → s.aggregated = cfg.workerCount

theorem inv_initState (cfg : GrepCfg) : Inv cfg (initState cfg) := by
  refine ⟨?_, ?_, ?_, ?_, ?_, ?_⟩
  · simp [initState]
  · simp [initState, countDone_replicate_waiting]
  · intro rs hmem
    have h := List.eq_of_mem_replicate hmem
    simp at h
  · intro f hf
    exact hf
  · intro f hf
    simp [initState] at hf
  · intro h
    simp [initState] at h

/-- Every pipeline step preserves the invariants. -/
theorem inv_step (cfg : GrepCfg) (s t : PState) (hinv : Inv cfg s)
    (h : Step cfg s t) : Inv cfg t := by
  cases h with
  | dispatch f rest hp hcap =>
    refine ⟨hinv.workersLen, hinv.doneBalance, hinv.emittingSource, ?_, ?_,
      hinv.closedAgg⟩
    · intro g hg
      exact hinv.pendingSub g (by rw [hp]; exact List.mem_cons_of_mem f hg)
    · intro g hg
      rcases List.mem_append.mp hg with h1 | h1
      · exact hinv.jobsBufSub g h1
      · have hgf : g = f := by simpa using h1
        rw [hgf]
        exact hinv.pendingSub f (by rw [hp]; exact List.mem_cons_self f rest)
  | closeJobs hp hc =>
    exact ⟨hinv.workersLen, hinv.doneBalance, hinv.emittingSource,
      hinv.pendingSub, hinv.jobsBufSub, hinv.closedAgg⟩
  | take f rest lw rw hb hw =>
    refine ⟨?_, ?_, ?_, hinv.pendingSub, ?_, hinv.closedAgg⟩
    · have hlen := hinv.workersLen
      rw [hw] at hlen
      simp only [List.length_append, List.length_cons] at hlen ⊢
      omega
    · have hbal := hinv.doneBalance
      rw [hw, countDone_append] at hbal
      rw [countDone_append]
      simp [countDone] at hbal ⊢
      omega
    · intro rs hmem
      rcases List.mem_append.mp hmem with h1 | h1
      · exact hinv.emittingSource rs
          (by rw [hw]; exact List.mem_append.mpr (Or.inl h1))
      · rcases List.mem_cons.mp h1 with h2 | h2
        · have hf : f ∈ cfg.files :=
            hinv.jobsBufSub f (by rw [hb]; exact List.mem_cons_self f rest)
          intro hnil
          rw [hnil] at hf
          simp at hf
        · exact hinv.emittingSource rs (by
            rw [hw]
            exact List.mem_append.mpr (Or.inr (List.mem_cons_of_mem _ h2)))
    · intro g hg
      exact hinv.jobsBufSub g (by rw [hb]; exact List.mem_cons_of_mem f hg)
  | workerExit lw rw hb hc hw hcap =>
    refine ⟨?_, ?_, ?_, hinv.pendingSub, hinv.jobsBufSub, hinv.closedAgg⟩
    · have hlen := hinv.workersLen
      rw [hw] at hlen
      simp only [List.length_append, List.length_cons] at hlen ⊢
      omega
    · have hbal := hinv.doneBalance
      rw [hw, countDone_append] at hbal
      rw [countDone_append]
      simp [countDone] at hbal ⊢
      omega
    · intro rs hmem
      rcases List.mem_append.mp hmem with h1 | h1
      · exact hinv.emittingSource rs
          (by rw [hw]; exact List.mem_append.mpr (Or.inl h1))
      · rcases List.mem_cons.mp h1 with h2 | h2
        · simp at h2
        · exact hinv.emittingSource rs (by
            rw [hw]
            exact List.mem_append.mpr (Or.inr (List.mem_cons_of_mem _ h2)))
  | emit r rs lw rw hw hcap hopen =>
    refine ⟨?_, ?_, ?_, hinv.pendingSub, hinv.jobsBufSub, hinv.closedAgg⟩
    · have hlen := hinv.workersLen
      rw [hw] at hlen
      simp only [List.length_append, List.length_cons] at hlen ⊢
      omega
    · have hbal := hinv.doneBalance
      rw [hw, countDone_append] at hbal
      rw [countDone_append]
      simp [countDone] at hbal ⊢
      omega
    · intro rs2 hmem
      rcases List.mem_append.mp hmem with h1 | h1
      · exact hinv.emittingSource rs2
          (by rw [hw]; exact List.mem_append.mpr (Or.inl h1))
      · rcases List.mem_cons.mp h1 with h2 | h2
        · refine hinv.emittingSource (r :: rs) ?_
          rw [hw]
          exact List.mem_append.mpr (Or.inr (List.mem_cons_self _ _))
        · exact hinv.emittingSource rs2 (by
            rw [hw]
            exact List.mem_append.mpr (Or.inr (List.mem_cons_of_mem _ h2)))
  | finishJob lw rw hw =>
    refine ⟨?_, ?_, ?_, hinv.pendingSub, hinv.jobsBufSub, hinv.closedAgg⟩
    · have hlen := hinv.workersLen
      rw [hw] at hlen
      simp only [List.length_append, List.length_cons] at hlen ⊢
      omega
    · have hbal := hinv.doneBalance
      rw [hw, countDone_append] at hbal
      rw [countDone_append]
      simp [countDone] at hbal ⊢
      omega
    · intro rs hmem
      rcases List.mem_append.mp hmem with h1 | h1
      · exact hinv.emittingSource rs
          (by rw [hw]; exact List.mem_append.mpr (Or.inl h1))
      · rcases List.mem_cons.mp h1 with h2 | h2
        · simp at h2
        · exact hinv.emittingSource rs (by
            rw [hw]
            exact List.mem_append.mpr (Or.inr (List.mem_cons_of_mem _ h2)))
  | aggRecv hd ha =>
    refine ⟨hinv.workersLen, ?_, hinv.emittingSource, hinv.pendingSub,
      hinv.jobsBufSub, ?_⟩
    · have hbal := hinv.doneBalance
      simp only []
      omega
    · intro hclosed
      have hagg := hinv.closedAgg hclosed
      omega
  | closeResults ha hc =>
    exact ⟨hinv.workersLen, hinv.doneBalance, hinv.emittingSource,
      hinv.pendingSub, hinv.jobsBufSub, fun _ => ha⟩
  | consume r rest hb =>
    exact ⟨hinv.workersLen, hinv.doneBalance, hinv.emittingSource,
      hinv.pendingSub, hinv.jobsBufSub, hinv.closedAgg⟩

/-- Invariants hold in every reachable state. -/
theorem inv_of_reachable (cfg : GrepCfg) (s : PState)
    (h : StepStar cfg (initState cfg) s) : Inv cfg s := by
  induction h with
  | refl => exact inv_initState cfg
  | tail hstar hstep ih => exact inv_step cfg _ _ ih hstep

/-- Deadlock freedom: a reachable state is final — the foreground loop sees
the result sink closed and drained — or some task has an enabled step. -/
theorem progress (cfg : GrepCfg) (hW : 1 ≤ cfg.workerCount) (s : PState)
    (hinv : Inv cfg s) : Final s ∨ ∃ t, Step cfg s t := by
  cases hrc : s.resultsClosed with
  | true =>
    cases hrb : s.resultsBuf with
    | nil => exact Or.inl ⟨hrc, hrb⟩
    | cons r rest => exact Or.inr ⟨_, Step.consume s r rest hrb⟩
  | false =>
    by_cases hagg : s.aggregated = cfg.workerCount
    · exact Or.inr ⟨_, Step.closeResults s hagg hrc⟩
    · have haggle : s.aggregated ≤ cfg.workerCount := by
        have h1 := hinv.doneBalance
        have h2 := countDone_le_length s.workers
        have h3 := hinv.workersLen
        omega
      have hagglt : s.aggregated < cfg.workerCount := by omega
      by_cases hdc : 1 ≤ s.doneCount
      · exact Or.inr ⟨_, Step.aggRecv s hdc hagglt⟩
      · have hdc0 : s.doneCount = 0 := by omega
        have hcd : countDone s.workers < s.workers.length := by
          have h1 := hinv.doneBalance
          have h3 := hinv.workersLen
          omega
        obtain ⟨lw, w, rw, hsplit, hwne⟩ := exists_not_done s.workers hcd
        cases w with
        | done => exact absurd rfl hwne
        | waiting =>
          cases hjb : s.jobsBuf with
          | cons f rest =>
            exact Or.inr ⟨_, Step.take s f rest lw rw hjb hsplit⟩
          | nil =>
            cases hjc : s.jobsClosed with
            | true =>
              refine Or.inr ⟨_, Step.workerExit s lw rw hjb hjc hsplit ?_⟩
              omega
            | false =>
              cases hp : s.pending with
              | cons f rest =>
                refine Or.inr ⟨_, Step.dispatch s f rest hp ?_⟩
                rw [hjb]
                simpa using hW
              | nil => exact Or.inr ⟨_, Step.closeJobs s hp hjc⟩
        | emitting rs =>
          cases rs with
          | nil => exact Or.inr ⟨_, Step.finishJob s lw rw hsplit⟩
          | cons r rs2 =>
            by_cases hcap : s.resultsBuf.length < cfg.files.length
            · exact Or.inr ⟨_, Step.emit s r rs2 lw rw hsplit hcap hrc⟩
            · have hfne : cfg.files ≠ [] := by
                refine hinv.emittingSource (r :: rs2) ?_
                rw [hsplit]
                exact List.mem_append.mpr (Or.inr (List.mem_cons_self _ _))
              have hcap1 : 1 ≤ cfg.files.length := by
                cases hfl : cfg.files with
                | nil => exact absurd hfl hfne
                | cons a as =>
                  simp only [List.length_cons]
                  omega
              have hrb1 : 1 ≤ s.resultsBuf.length := by omega
              cases hrb : s.resultsBuf with
              | nil =>
                rw [hrb] at hrb1
                simp at hrb1
              | cons r0 rest => exact Or.inr ⟨_, Step.consume s r0 rest hrb⟩

/-- From any reachable state the pipeline reaches the final observation,
by induction on the strictly decreasing measure. -/
theorem reach_final_aux (cfg : GrepCfg) (hW : 1 ≤ cfg.workerCount) :
    ∀ (n : Nat) (s : PState), pipeMeasure cfg s ≤ n →
      StepStar cfg (initState cfg) s →
      ∃ t, StepStar cfg s t ∧ Final t := by
  intro n
  induction n with
  | zero =>
    intro s hm hreach
    rcases progress cfg hW s (inv_of_reachable cfg s hreach) with hF | ⟨t, hstep⟩
    · exact ⟨s, Relation.ReflTransGen.refl, hF⟩
    · have := step_measure_lt cfg s t hstep
      omega
  | succ n ih =>
    intro s hm hreach
    rcases progress cfg hW s (inv_of_reachable cfg s hreach) with hF | ⟨t, hstep⟩
    · exact ⟨s, Relation.ReflTransGen.refl, hF⟩
    · have hlt := step_measure_lt cfg s t hstep
      obtain ⟨u, hstar, hfin⟩ :=
        ih t (by omega) (Relation.ReflTransGen.tail hreach hstep)
      exact ⟨u, Relation.ReflTransGen.head hstep hstar, hfin⟩

/-- The pipeline of one `grep` invocation over the program's own job
processing: each job emits what `Job.Do` emits on that file's source. -/
def grepPipeline (P : List Char → Bool) (srcOf : String → Source)
    (files : List String) (W : Nat) : GrepCfg :=
  ⟨files, W, fun f => jobDo P f (srcOf f)⟩

/-- C7: for every finite file list (the empty one included), every pattern,
every per-file source behaviour and every worker-pool size of at least 1,
the grep pipeline terminates without deadlock: every step strictly
decreases a finite measure, so there is no infinite run; every reachable
state either is the final observation — the foreground consumer loop sees
the result sink closed and drained — or has an enabled step for the
dispatcher, a worker, the aggregator or the consumer; and from every
reachable state, the initial one included, the pipeline reaches the final
observation. -/
theorem c7_termination (P : List Char → Bool) (srcOf : String → Source)
    (files : List String) (W : Nat) (hW : 1 ≤ W) :
    (∀ s t, Step (grepPipeline P srcOf files W) s t →
        pipeMeasure (grepPipeline P srcOf files W) t <
          pipeMeasure (grepPipeline P srcOf files W) s) ∧
      ∀ s, StepStar (grepPipeline P srcOf files W)
          (initState (grepPipeline P srcOf files W)) s →
        (Final s ∨ ∃ t, Step (grepPipeline P srcOf files W) s t) ∧
          ∃ t, StepStar (grepPipeline P srcOf files W) s t ∧ Final t := by
  refine ⟨fun s t h => step_measure_lt _ s t h, fun s hreach => ⟨?_, ?_⟩⟩
  · exact progress _ hW s (inv_of_reachable _ s hreach)
  · exact reach_final_aux _ hW (pipeMeasure _ s) s le_rfl hreach

/-- Witness for C7: the pipeline for one file and one worker, observed from
its initial state. -/
theorem c7_witness :
    (Final (initState (grepPipeline patAll (fun _ => ⟨['x'], false⟩)
          ["a.txt"] 1)) ∨
        ∃ t, Step (grepPipeline patAll (fun _ => ⟨['x'], false⟩) ["a.txt"] 1)
          (initState (grepPipeline patAll (fun _ => ⟨['x'], false⟩)
            ["a.txt"] 1)) t) ∧
      ∃ t, StepStar (grepPipeline patAll (fun _ => ⟨['x'], false⟩)
          ["a.txt"] 1)
          (initState (grepPipeline patAll (fun _ => ⟨['x'], false⟩)
            ["a.txt"] 1)) t ∧ Final t :=
  (c7_termination patAll (fun _ => ⟨['x'], false⟩) ["a.txt"] 1 (by decide)).2
    (initState (grepPipeline patAll (fun _ => ⟨['x'], false⟩) ["a.txt"] 1))
    Relation.ReflTransGen.refl

end CGrep
